import Mathlib

/-!
Verification development for `examples/hhl.py`: a shallow embedding of the
HHL-algorithm example (Hamiltonian simulation gate, phase estimation,
eigenvalue-inversion rotation network, circuit composition, amplitude
amplification, and the adaptive sampling loop), together with theorems
settling the specification claims about it.

Circuits are modelled as ordered lists of operations; qubits are the
`cirq.LineQubit` indices the source allocates (ancilla `0`, register
`1..n`, memory `n+1`).  Real-valued scalars of the source (`C`, `t`,
angles) are modelled as real numbers; `math.asin`'s domain error is
modelled by an `Option` result; `numpy`'s NaN-on-empty-mean is modelled
by an `Option` result.  External numerical primitives that the source
treats as black boxes (`np.linalg.eigh`, the simulator's measurement
outcomes, `random.randint`) are parameters of the corresponding
definitions.
-/

/-- 2×2 complex matrices, the matrix type of this example (`A` is 2×2). -/
abbrev Mat2 := Matrix (Fin 2) (Fin 2) ℂ

/-- Type of the external eigendecomposition primitive `np.linalg.eigh`:
from a Hermitian matrix, a list of (eigenvalue, eigenvector) pairs.
It is a black box here; as a function it is deterministic, which is how
`np.linalg.eigh`'s bitwise-reproducible behaviour on a fixed input is
modelled. -/
abbrev EighFn := Mat2 → List (ℝ × (Fin 2 → ℂ))

/-- `HamiltonianSimulation` gate data: fields set by `__init__`
(hhl.py lines 119–128): the matrix `A`, time `t`, the `EigenGate`
exponent, and the computed `eigen_components` list of
`(w * t / pi, outer(v, conj(v)))` pairs. -/
structure HamiltonianSimulation where
  A : Mat2
  t : ℝ
  exponent : ℝ
  eigen_components : List (ℝ × Mat2)

/-- The `eigen_components` computed in `HamiltonianSimulation.__init__`:
for each eigenpair `(w, v)` of `A`, the pair `(w * t / π, np.outer(v, np.conj(v)))`. -/
noncomputable def eigenComponentsOf (eigh : EighFn) (A : Mat2) (t : ℝ) : List (ℝ × Mat2) :=
  (eigh A).map (fun wv =>
    (wv.1 * t / Real.pi, Matrix.vecMulVec wv.2 (fun i => (starRingEnd ℂ) (wv.2 i))))

/-- `HamiltonianSimulation.__init__(A, t, exponent)`: stores `A`, `t`, the
exponent, and computes the eigen components by calling `np.linalg.eigh` once.
The second component of the result counts the number of `np.linalg.eigh`
invocations this constructor performs (exactly one, line 123). -/
noncomputable def hamSimInit (eigh : EighFn) (A : Mat2) (t exponent : ℝ) :
    HamiltonianSimulation × ℕ :=
  (⟨A, t, exponent, eigenComponentsOf eigh A t⟩, 1)

/-- `HamiltonianSimulation._with_exponent(exponent)` (lines 133–134):
`return HamiltonianSimulation(self.A, self.t, exponent)` — it re-runs
`__init__`, so the eigh-call count of the resulting construction is that
of `__init__`. -/
noncomputable def hamSimWithExponent (eigh : EighFn) (g : HamiltonianSimulation)
    (exponent : ℝ) : HamiltonianSimulation × ℕ :=
  hamSimInit eigh g.A g.t exponent

/-- Gates appearing (undcomposed) in the circuits this example builds.
`controlled c g` is `cirq.ControlledGate(g, num_controls=c)`;
`phasedXPow e pe` is `cirq.PhasedXPowGate` with the two named `sympy`
symbols; `inv g` is `g ** -1`; `hamSim`/`phaseEstimation`/`eigenRotation`
are the example's own gate classes with their constructor parameters. -/
inductive Gate where
  | H
  | X
  | Z
  | ry (theta : ℝ)
  | controlled (numControls : ℕ) (g : Gate)
  | hamSim (A : Mat2) (t exponent : ℝ)
  | phaseEstimation (numQubits : ℕ) (u : Gate)
  | eigenRotation (numQubits : ℕ) (C t : ℝ)
  | inv (g : Gate)
  | phasedXPow (exponent phaseExponent : String)

/-- An operation of a circuit: a gate applied to a qubit list, or a
measurement (`cirq.measure(..., key=...)`) with its key. -/
inductive Op where
  | gate (g : Gate) (qubits : List ℕ)
  | measure (key : String) (qubits : List ℕ)

/-- Whether an operation is a measurement. -/
def Op.isMeasurement : Op → Bool
  | Op.measure _ _ => true
  | _ => false

/-- `op ** -1` as used by circuit inversion: gates are inverted, and the
qubits kept (the base circuit that gets inverted contains no measurement). -/
def Op.invert : Op → Op
  | Op.gate g qs => Op.gate (Gate.inv g) qs
  | Op.measure k qs => Op.measure k qs

/-- `circuit ** -1` (`cirq.inverse`): reverse the operation order and invert
each operation. -/
def circuitInv (c : List Op) : List Op :=
  (c.reverse).map Op.invert

/-- The ancilla qubit `cirq.LineQubit(0)` (line 235). -/
def ancillaQ : ℕ := 0

/-- The eigenvalue register `[cirq.LineQubit(i + 1) for i in range(register_size)]`
(line 237). -/
def registerQs (registerSize : ℕ) : List ℕ :=
  (List.range registerSize).map (· + 1)

/-- The memory qubit `cirq.LineQubit(register_size + 1)` (line 239). -/
def memoryQ (registerSize : ℕ) : ℕ := registerSize + 1

/-- Python's arithmetic right shift by one, `x >> 1`, on arbitrary-precision
two's-complement integers: floor division by 2.  `(x - x % 2)` is even, so
this is exact division and agrees with floor division; in particular
`(-1) >> 1 = -1`. -/
def pyShr1 (x : ℤ) : ℤ := (x - x % 2) / 2

/-- Bit `i` of the two's-complement integer `x` as consumed by the
`xor % 2 == 1` / `xor >>= 1` loop of `EigenRotation._decompose_`. -/
def bitI (x : ℤ) (i : ℕ) : Bool := decide ((pyShr1^[i] x) % 2 = 1)

/-- `xor = k ^ (k - 1)` (line 188) with Python integer semantics: for
`k = 0` the second operand is `-1` and the two's-complement xor is
`0 ^ (-1) = -1` (all bits set); for `k ≥ 1` both operands are naturals and
this is `Nat.xor`. -/
def xorInit (k : ℕ) : ℤ :=
  if k = 0 then -1 else ((k ^^^ (k - 1) : ℕ) : ℤ)

/-- `EigenRotation._ancilla_rotation(k)` (lines 201–205): replace `k = 0` by
`N`, then `theta = 2 * math.asin(C * N * t / (2 * math.pi * k))`.
`math.asin` raises `ValueError: math domain error` when its argument lies
outside `[-1, 1]`; that failure is modelled as `none`. -/
noncomputable def thetaE (C t : ℝ) (N k : ℕ) : Option ℝ :=
  let k' : ℕ := if k = 0 then N else k
  let x : ℝ := C * N * t / (2 * Real.pi * k')
  if |x| ≤ 1 then some (2 * Real.arcsin x) else none

/-- The specification's formula for the inversion-rotation angle (spec §4.3):
`θ(k) = 2·arcsin(C·N·t / (2π·k'))` where `k' = k` if `k ≠ 0` else `N`. -/
noncomputable def thetaSpec (C t : ℝ) (N k : ℕ) : ℝ :=
  2 * Real.arcsin (C * N * t / (2 * Real.pi * (if k = 0 then (N : ℝ) else (k : ℝ))))

/-- The inner loop of `EigenRotation._decompose_` (lines 190–197): walk the
register qubits `qubits[-2::-1]` (least-significant first), emitting an `X`
where the current low bit of `xor` is `1`, shifting `xor` right, and wrapping
the accumulated gate in one more `cirq.ControlledGate` per qubit.  Returns
the emitted `X` operations and the final wrapped gate. -/
def eigenLoop : ℤ → Gate → List ℕ → List Op × Gate
  | _, g, [] => ([], g)
  | x, g, q :: rest =>
    let hd : List Op := if x % 2 = 1 then [Op.gate Gate.X [q]] else []
    let r := eigenLoop (pyShr1 x) (Gate.controlled 1 g) rest
    (hd ++ r.1, r.2)

/-- Just the `X` operations emitted by `eigenLoop` (same recursion, gate
accumulator dropped). -/
def eigenLoopOpsX : ℤ → List ℕ → List Op
  | _, [] => []
  | x, q :: rest =>
    (if x % 2 = 1 then [Op.gate Gate.X [q]] else []) ++ eigenLoopOpsX (pyShr1 x) rest

/-- The `k`-th block of `EigenRotation._decompose_` (lines 184–199, one
iteration of `for k in range(self.N)`): the `X` toggles followed by the
multiply-controlled rotation applied to all the qubits.  `none` when
`_ancilla_rotation(k)` raises. -/
noncomputable def eigenBlock (C t : ℝ) (n : ℕ) (qs : List ℕ) (k : ℕ) :
    Option (List Op) :=
  (thetaE C t (2 ^ n) k).map (fun θ =>
    let r := eigenLoop (xorInit k) (Gate.ry θ) qs.dropLast.reverse
    r.1 ++ [Op.gate r.2 qs])

/-- All the blocks of `EigenRotation._decompose_` for the `k` values in `ks`,
in order; `none` as soon as one block fails. -/
noncomputable def blocksAux (C t : ℝ) (n : ℕ) (qs : List ℕ) :
    List ℕ → Option (List (List Op))
  | [] => some []
  | k :: ks =>
    match eigenBlock C t n qs k, blocksAux C t n qs ks with
    | some b, some bs => some (b :: bs)
    | _, _ => none

/-- `EigenRotation._decompose_(qubits)` grouped into its per-`k` blocks:
`for k in range(self.N)` with `N = 2 ** (num_qubits - 1)` and `n` register
qubits. -/
noncomputable def eigenDecomposeBlocks (C t : ℝ) (n : ℕ) (qs : List ℕ) :
    Option (List (List Op)) :=
  blocksAux C t n qs (List.range (2 ^ n))

/-- Does this operation apply a bare `X` to exactly the qubit `j`? -/
def isXOn (j : ℕ) : Op → Bool
  | Op.gate Gate.X qs => decide (qs = [j])
  | _ => false

/-- Number of `X` operations on qubit `j` in an operation list. -/
def xCountOn (j : ℕ) (ops : List Op) : ℕ := ops.countP (isXOn j)

/-- Is this gate an `n`-fold singly-controlled `Ry` (the shape
`ControlledGate(...(ControlledGate(ry θ))...)` built by the decompose loop)? -/
def isCtrlRyDepth : ℕ → Gate → Bool
  | 0, Gate.ry _ => true
  | n + 1, Gate.controlled 1 g => isCtrlRyDepth n g
  | _, _ => false

/-- Is this operation an `n`-controlled `Ry` rotation operation? -/
def isCtrlRotOp (n : ℕ) : Op → Bool
  | Op.gate g _ => isCtrlRyDepth n g
  | _ => false

/-- Parity (as a `Bool`) of the number of `X` toggles that blocks `0..k` of
the decompose loop apply at loop position `i` (position `i` consumes bit `i`
of each block's `xor`). -/
def cumXor : ℕ → ℕ → Bool
  | 0, i => bitI (xorInit 0) i
  | k + 1, i => (cumXor k i).xor (bitI (xorInit (k + 1)) i)

/-- The `HHLAlgorithm` object state set up by `HHLAlgorithm.__init__`
(lines 215–239).  Note the constructor performs no validation of any
parameter. -/
structure HHLAlg where
  A : Mat2
  C : ℝ
  t : ℝ
  register_size : ℕ
  input_prep_gates : List Gate
  ancilla : ℕ
  register : List ℕ
  memory : ℕ

/-- `HHLAlgorithm.__init__(A, C, t, register_size, *input_prep_gates)`:
stores the parameters and allocates the qubits; no checks are made. -/
def hhlInit (A : Mat2) (C t : ℝ) (registerSize : ℕ) (prep : List Gate) : HHLAlg :=
  ⟨A, C, t, registerSize, prep, ancillaQ, registerQs registerSize, memoryQ registerSize⟩

/-- `HHLAlgorithm.hhl_circuit()` (lines 241–262): input-preparation gates on
the memory qubit, then `pe(register + [memory])`,
`EigenRotation(...)(register + [ancilla])`, and `pe(register + [memory]) ** -1`
with the same `pe` object. -/
def hhlCircuit (A : Mat2) (C t : ℝ) (n : ℕ) (prep : List Gate) : List Op :=
  let hs := Gate.hamSim A t 1
  let pe := Gate.phaseEstimation (n + 1) hs
  prep.map (fun g => Op.gate g [memoryQ n]) ++
    [Op.gate pe (registerQs n ++ [memoryQ n]),
     Op.gate (Gate.eigenRotation (n + 1) C t) (registerQs n ++ [ancillaQ]),
     Op.gate (Gate.inv pe) (registerQs n ++ [memoryQ n])]

/-- `HHLAlgorithm.diffusion_operator()` (lines 264–273): `X` on every qubit,
a `(register_size+1)`-controlled `Z` across all the qubits, `X` on every
qubit again. -/
def diffusionOperator (n : ℕ) : List Op :=
  let qubits := ancillaQ :: (registerQs n ++ [memoryQ n])
  qubits.map (fun q => Op.gate Gate.X [q]) ++
    [Op.gate (Gate.controlled (n + 1) Gate.Z) qubits] ++
    qubits.map (fun q => Op.gate Gate.X [q])

/-- The loop of `HHLAlgorithm.amplitude_amplification` (lines 292–296): each
iteration appends `Z` on the ancilla, the inverted base circuit, the
diffusion operator, and the base circuit. -/
def ampLoop (base block : List Op) : ℕ → List Op
  | 0 => base
  | i + 1 => ampLoop base block i ++ block

/-- `HHLAlgorithm.amplitude_amplification(num_iterations)` (lines 275–298). -/
def amplitudeAmplification (A : Mat2) (C t : ℝ) (n : ℕ) (prep : List Gate)
    (numIterations : ℕ) : List Op :=
  let base := hhlCircuit A C t n prep
  ampLoop base
    ([Op.gate Gate.Z [ancillaQ]] ++ circuitInv base ++ diffusionOperator n ++ base)
    numIterations

/-- `HHLAlgorithm.measure_circuit(circuit)` (lines 300–323): append the
ancilla measurement (key `a`), the parametrized `PhasedXPowGate` on the
memory qubit, and the memory measurement (key `m`); return the (mutated)
circuit. -/
def measureCircuit (n : ℕ) (circuit : List Op) : List Op :=
  circuit ++ [Op.measure "a" [ancillaQ]] ++
    [Op.gate (Gate.phasedXPow "exponent" "phase_exponent") [memoryQ n],
     Op.measure "m" [memoryQ n]]

/-- `np.mean` over a list of reals, with `numpy`'s behaviour on an empty
array — the mean of zero samples is NaN — modelled as `none`. -/
noncomputable def npMean : List ℝ → Option ℝ
  | [] => none
  | x :: xs => some ((x :: xs).sum / (x :: xs).length)

/-- The expectation `1 - 2 * np.mean(result)` computed per observable in
`HHLAlgorithm.print_results` (line 339); NaN propagates. -/
noncomputable def obsExpectation (result : List ℝ) : Option ℝ :=
  (npMean result).map (fun m => 1 - 2 * m)

/-- The per-observable success probability `num_estimates / runs`
(line 345): Python integer true division, which raises `ZeroDivisionError`
when `runs = 0`; the failure is modelled as `none`. -/
noncomputable def successProb (result : List ℝ) (runs : ℤ) : Option ℝ :=
  if runs = 0 then none else some ((result.length : ℝ) / (runs : ℝ))

/-- The `for label, result, runs in zip(...)` loop of
`HHLAlgorithm.print_results` (lines 338–345), processing the observables in
order: each iteration computes the expectation (NaN allowed) and the
success probability `num_estimates / runs`; a `ZeroDivisionError` aborts
the whole call (`none`), so nothing is returned for any observable. -/
noncomputable def printResultsLoop : List (List ℝ × ℤ) → Option (List (Option ℝ) × List ℝ)
  | [] => some ([], [])
  | (result, runs) :: rest =>
    match successProb result runs with
    | none => none
    | some p =>
      match printResultsLoop rest with
      | none => none
      | some r => some (obsExpectation result :: r.1, p :: r.2)

/-- The outputs of `HHLAlgorithm.print_results` (lines 325–347): for each of
the (at most three) `(result, runs)` pairs, the printed expectation value
and the accumulated success probability, the returned scalar being the mean
of the success probabilities; `none` when a zero `runs` count raises
`ZeroDivisionError`. -/
noncomputable def printResultsOut (results : List (List ℝ)) (numRuns : List ℤ) :
    Option (List (Option ℝ) × Option ℝ) :=
  (printResultsLoop ((results.zip numRuns).take 3)).map
    (fun r => (r.1, npMean r.2))

/-- Accounting state of the `simulate_with_amplification` sampling loop for
one observable: the remaining shot budget `repetitions`, the accumulated
`num_runs`, and the list of `repetitions` arguments of the
`simulator.run` calls issued so far, in order. -/
structure BState where
  reps : ℤ
  numRuns : ℤ
  calls : List ℤ

/-- One `simulator.run(...)` call of the Mode-B loop (lines 421–431): the
call is issued with the current `repetitions`; `num_runs += repetitions`;
the number of surviving (`ancilla = 1`) shots — a value of the external
simulator, supplied by the `successes` oracle, indexed by the number of
calls made so far — is subtracted from `repetitions`.  The drawn iteration
count `j` and the measured bits affect only the circuit executed, not this
accounting, so they are absorbed into the oracle. -/
def modeBCall (successes : ℕ → ℕ) (s : BState) : BState :=
  { reps := s.reps - successes s.calls.length,
    numRuns := s.numRuns + s.reps,
    calls := s.calls ++ [s.reps] }

/-- The inner `for _ in range(2)` loop (lines 419–432): perform up to the
given number of trials, breaking as soon as `repetitions <= 0`. -/
def modeBInner (successes : ℕ → ℕ) : ℕ → BState → BState
  | 0, s => s
  | t + 1, s =>
    let s' := modeBCall successes s
    if s'.reps ≤ 0 then s' else modeBInner successes t s'

/-- The outer `for l in range(1, 10)` loop (lines 413–434): up to the given
number of doubling rounds of two trials each, breaking as soon as
`repetitions <= 0`. -/
def modeBOuter (successes : ℕ → ℕ) : ℕ → BState → BState
  | 0, s => s
  | l + 1, s =>
    let s' := modeBInner successes 2 s
    if s'.reps ≤ 0 then s' else modeBOuter successes l s'

/-- The whole Mode-B sampling loop of
`HHLAlgorithm.simulate_with_amplification` for one observable
(lines 404–437): 9 doubling rounds of 2 trials, starting from
`repetitions = total_estimates` and `num_runs = 0`. -/
def simulateWithAmplificationObs (successes : ℕ → ℕ) (totalEstimates : ℤ) : BState :=
  modeBOuter successes 9 ⟨totalEstimates, 0, []⟩

/-- A concrete success oracle (every call finds one surviving shot), used to
instantiate the Mode-B accounting theorem. -/
def oracleOne : ℕ → ℕ := fun _ => 1

/-- Flattening one more replicated block appends the block at the end. -/
theorem flatten_replicate_succ {α : Type} (i : ℕ) (b : List α) :
    (List.replicate (i + 1) b).flatten = (List.replicate i b).flatten ++ b := by
  rw [List.replicate_succ', List.flatten_append]
  simp

/-- Claim C1 (counterexample): `_with_exponent` does recompute the
eigendecomposition — it rebuilds the gate through `__init__`, which performs
one fresh `np.linalg.eigh` call, so the eigh-call count of a
`_with_exponent` invocation is 1, not 0 as the cached-decomposition claim
requires. -/
theorem withExponent_recomputes_eigh_cex :
    (hamSimWithExponent (fun _ => []) (hamSimInit (fun _ => []) 0 1 1).1 2).2 ≠ 0 := by
  simp [hamSimWithExponent, hamSimInit]

/-- Claim C1 (amended): `_with_exponent(e)` reconstructs the gate from the stored
`(A, t)`, performing exactly one fresh eigendecomposition call; because the
decomposition primitive is a deterministic function of `A`, the recomputed
eigen-component parameters (phase angles and projectors) are identical to
those of the original gate built from the same `(A, t)`, and only the
exponent differs. -/
theorem withExponent_deterministic_components (eigh : EighFn) (A : Mat2) (t e0 e : ℝ) :
    (hamSimWithExponent eigh (hamSimInit eigh A t e0).1 e).1.eigen_components
        = (hamSimInit eigh A t e0).1.eigen_components
    ∧ (hamSimWithExponent eigh (hamSimInit eigh A t e0).1 e).1.A = A
    ∧ (hamSimWithExponent eigh (hamSimInit eigh A t e0).1 e).1.t = t
    ∧ (hamSimWithExponent eigh (hamSimInit eigh A t e0).1 e).1.exponent = e
    ∧ (hamSimWithExponent eigh (hamSimInit eigh A t e0).1 e).2 = 1 :=
  ⟨rfl, rfl, rfl, rfl, rfl⟩

/-- No operation of the base HHL circuit is a measurement. -/
theorem hhlCircuit_ops_not_measurement (A : Mat2) (C t : ℝ) (n : ℕ)
    (prep : List Gate) :
    ∀ op ∈ hhlCircuit A C t n prep, op.isMeasurement = false := by
  intro op hop
  simp only [hhlCircuit, List.mem_append, List.mem_map, List.mem_cons,
    List.mem_singleton] at hop
  rcases hop with ⟨g, _, rfl⟩ | rfl | rfl | rfl | hfalse
  · rfl
  · rfl
  · rfl
  · rfl
  · cases hfalse

/-- Claim C4: the base HHL circuit consists, in order, of the input-preparation
gates on the memory qubit, the phase-estimation network over
register+memory, the eigenvalue-inversion network over register+ancilla,
and the inverse of the same phase-estimation instance (same parameters)
over register+memory; it contains no measurement operations. -/
theorem hhlCircuit_structure_no_measurement (A : Mat2) (C t : ℝ) (n : ℕ)
    (prep : List Gate) :
    hhlCircuit A C t n prep =
      prep.map (fun g => Op.gate g [memoryQ n]) ++
        [Op.gate (Gate.phaseEstimation (n + 1) (Gate.hamSim A t 1))
           (registerQs n ++ [memoryQ n]),
         Op.gate (Gate.eigenRotation (n + 1) C t) (registerQs n ++ [ancillaQ]),
         Op.gate (Gate.inv (Gate.phaseEstimation (n + 1) (Gate.hamSim A t 1)))
           (registerQs n ++ [memoryQ n])]
    ∧ ∀ op ∈ hhlCircuit A C t n prep, op.isMeasurement = false :=
  ⟨rfl, hhlCircuit_ops_not_measurement A C t n prep⟩

/-- Claim C5: `amplitude_amplification(num_iterations)` is the base circuit
followed by exactly `num_iterations` repeats of the block
`[Z on ancilla, inverse base circuit, diffusion operator, base circuit]`;
at `num_iterations = 0` it is operation-for-operation the base circuit. -/
theorem amplitudeAmplification_structure (A : Mat2) (C t : ℝ) (n : ℕ)
    (prep : List Gate) (numIterations : ℕ) :
    amplitudeAmplification A C t n prep numIterations =
      hhlCircuit A C t n prep ++
        (List.replicate numIterations
          ([Op.gate Gate.Z [ancillaQ]] ++ circuitInv (hhlCircuit A C t n prep) ++
            diffusionOperator n ++ hhlCircuit A C t n prep)).flatten
    ∧ amplitudeAmplification A C t n prep 0 = hhlCircuit A C t n prep := by
  constructor
  · induction numIterations with
    | zero => simp [amplitudeAmplification, ampLoop]
    | succ i ih =>
      rw [flatten_replicate_succ]
      simp only [amplitudeAmplification, ampLoop] at ih ⊢
      rw [ih, List.append_assoc]
  · rfl

/-- Claim C7: when an observable has zero surviving shots (and the run
counts are nonzero, so the separate `num_estimates / runs` division does
not raise), the computed expectation value is the NaN sentinel (`np.mean`
of an empty array is NaN, modelled as `none`) rather than a numerically
meaningless mean, and the NaN anomaly does not abort processing of the
remaining observables: `print_results` completes and every observable's
expectation is still computed from its own samples. -/
theorem printResults_empty_sentinel (r1 r3 : List ℝ) (n1 n2 n3 : ℤ)
    (h1 : n1 ≠ 0) (h2 : n2 ≠ 0) (h3 : n3 ≠ 0) :
    obsExpectation [] = none
    ∧ (printResultsOut [r1, [], r3] [n1, n2, n3]).map Prod.fst =
        some [obsExpectation r1, none, obsExpectation r3] := by
  refine ⟨rfl, ?_⟩
  have s1 : successProb r1 n1 = some ((r1.length : ℝ) / (n1 : ℝ)) := by
    rw [successProb, if_neg h1]
  have s2 : successProb ([] : List ℝ) n2 =
      some ((([] : List ℝ).length : ℝ) / (n2 : ℝ)) := by
    rw [successProb, if_neg h2]
  have s3 : successProb r3 n3 = some ((r3.length : ℝ) / (n3 : ℝ)) := by
    rw [successProb, if_neg h3]
  simp only [printResultsOut, List.zip, List.zipWith, List.take,
    printResultsLoop, s1, s2, s3, Option.map_some']
  rfl

/-- Witness for C7 at one surviving `1`-shot for X, zero surviving shots
for Y, zero for Z, with one run each. -/
theorem printResults_empty_sentinel_witness :
    (1 : ℤ) ≠ 0
    ∧ obsExpectation [] = none
    ∧ (printResultsOut [[1], [], []] [1, 1, 1]).map Prod.fst =
        some [obsExpectation [1], none, obsExpectation []] := by
  refine ⟨by norm_num, ?_, ?_⟩
  · exact (printResults_empty_sentinel [1] [] 1 1 1
      (by norm_num) (by norm_num) (by norm_num)).1
  · exact (printResults_empty_sentinel [1] [] 1 1 1
      (by norm_num) (by norm_num) (by norm_num)).2

/-- Claim C8 (counterexample): with `register_size = 0` (violating
`register_size ≥ 1`), `HHLAlgorithm.__init__` and `hhl_circuit()` run to
completion without reporting anything: construction yields an empty
register, and synthesis yields a normal three-operation circuit — no
malformed-parameter detection happens before execution-engine calls. -/
theorem registerSize_zero_synthesis_succeeds_cex :
    (hhlInit 0 0 0 0 []).register = [] ∧ (hhlInit 0 0 0 0 []).memory = 1
    ∧ hhlCircuit 0 0 0 0 [] =
      [Op.gate (Gate.phaseEstimation 1 (Gate.hamSim 0 0 1)) [1],
       Op.gate (Gate.eigenRotation 1 0 0) [0],
       Op.gate (Gate.inv (Gate.phaseEstimation 1 (Gate.hamSim 0 0 1))) [1]] :=
  ⟨rfl, rfl, rfl⟩

/-- Claim C8 (amended): malformed synthesis parameters are not detected at all:
for `register_size = 0 < 1` (and any matrix, scalars and preparation
gates), construction stores the parameters unchecked and `hhl_circuit`
succeeds, producing the usual measurement-free operation sequence. -/
theorem registerSize_zero_not_validated (A : Mat2) (C t : ℝ) (prep : List Gate) :
    (hhlInit A C t 0 prep).register = []
    ∧ hhlCircuit A C t 0 prep =
        prep.map (fun g => Op.gate g [1]) ++
          [Op.gate (Gate.phaseEstimation 1 (Gate.hamSim A t 1)) [1],
           Op.gate (Gate.eigenRotation 1 C t) [0],
           Op.gate (Gate.inv (Gate.phaseEstimation 1 (Gate.hamSim A t 1))) [1]]
    ∧ ∀ op ∈ hhlCircuit A C t 0 prep, op.isMeasurement = false :=
  ⟨rfl, rfl, hhlCircuit_ops_not_measurement A C t 0 prep⟩

/-- Claim C10: `measure_circuit` returns the input circuit with exactly the
ancilla measurement (key `a`), the parametrized `PhasedXPowGate` basis
change on the memory qubit, and the memory measurement (key `m`) appended,
leaving every pre-existing operation unchanged and in its original order
(the in-place mutation of the Python circuit object is modelled by the
function returning the updated circuit state of its argument). -/
theorem measureCircuit_appends_and_preserves (n : ℕ) (c : List Op) :
    measureCircuit n c =
      c ++ [Op.measure "a" [ancillaQ],
            Op.gate (Gate.phasedXPow "exponent" "phase_exponent") [memoryQ n],
            Op.measure "m" [memoryQ n]]
    ∧ (measureCircuit n c).take c.length = c := by
  have h : measureCircuit n c =
      c ++ [Op.measure "a" [ancillaQ],
            Op.gate (Gate.phasedXPow "exponent" "phase_exponent") [memoryQ n],
            Op.measure "m" [memoryQ n]] := by
    simp [measureCircuit]
  refine ⟨h, ?_⟩
  rw [h, List.take_left]

/-- Claim C2: for every `k` in `[0, 2^n)`, the angle `_ancilla_rotation(k)`
computes (when it is defined) is exactly the specification formula
`θ(k) = 2·arcsin(C·N·t/(2π·k'))` with `N = 2^n` and `k' = k` if `k ≠ 0`
else `N`; and the angle generated for `k = 0` equals the one the rule gives
for `k = N`. -/
theorem ancillaRotation_angle_spec (C t : ℝ) (n k : ℕ) (hk : k < 2 ^ n) (θ : ℝ)
    (h : thetaE C t (2 ^ n) k = some θ) :
    θ = thetaSpec C t (2 ^ n) k ∧ thetaE C t (2 ^ n) 0 = thetaE C t (2 ^ n) (2 ^ n) := by
  refine ⟨?_, by simp [thetaE]⟩
  simp only [thetaE] at h
  by_cases hx : |C * ((2 ^ n : ℕ) : ℝ) * t /
      (2 * Real.pi * ((if k = 0 then 2 ^ n else k : ℕ) : ℝ))| ≤ 1
  · rw [if_pos hx] at h
    rw [← Option.some.inj h]
    simp only [thetaSpec]
    have hc : ((if k = 0 then 2 ^ n else k : ℕ) : ℝ) =
        if k = 0 then ((2 ^ n : ℕ) : ℝ) else (k : ℝ) := by
      split
      · rfl
      · rfl
    rw [hc]
  · rw [if_neg hx] at h
    exact absurd h (by simp)

/-- Witness for C2 at `C = 0`, `t = 0`, `n = 0`, `k = 0`. -/
theorem ancillaRotation_angle_spec_witness :
    (0 : ℝ) = thetaSpec 0 0 (2 ^ 0) 0 ∧ thetaE 0 0 (2 ^ 0) 0 = thetaE 0 0 (2 ^ 0) (2 ^ 0) := by
  have h : thetaE 0 0 (2 ^ 0) 0 = some 0 := by simp [thetaE]
  exact ancillaRotation_angle_spec 0 0 0 0 (by norm_num) 0 h

/-- Claim C9 (counterexample): the ancilla-rotation computation does not succeed
for every positive `C` and `t`: with `C = 1`, `t = 1`, `register_size = 3`
(`N = 8`) the asin argument at `k = 1` is `8/(2π) > 1`, and
`_ancilla_rotation` raises a math domain error (modelled `none`). -/
theorem ancillaRotation_domain_error_cex : thetaE 1 1 (2 ^ 3) 1 = none := by
  simp only [thetaE, show (if (1 : ℕ) = 0 then 2 ^ 3 else (1 : ℕ)) = 1 from rfl,
    Nat.cast_one, Nat.cast_pow, Nat.cast_ofNat]
  split
  · rename_i hx
    exfalso
    rw [abs_le] at hx
    have h2 := hx.2
    rw [div_le_one (by positivity)] at h2
    nlinarith [Real.pi_lt_315]
  · rfl

/-- Claim C9 (amended): the bound `C ≤ 2π/(t·2^n)` is not enforced anywhere
(construction is unchecked), but it is not merely a precision guideline:
the `2·arcsin` computation is only defined when its argument lies in
`[-1, 1]`.  Under the guideline bound (`0 ≤ C`, `0 ≤ t`,
`C·2^n·t ≤ 2π`) every ancilla rotation of the network does succeed. -/
theorem ancillaRotation_ok_under_guideline (C t : ℝ) (n : ℕ) (hC : 0 ≤ C) (ht : 0 ≤ t)
    (hB : C * ((2 ^ n : ℕ) : ℝ) * t ≤ 2 * Real.pi) :
    ∀ k, k < 2 ^ n → (thetaE C t (2 ^ n) k).isSome := by
  intro k hk
  simp only [thetaE]
  rw [if_pos]
  · rfl
  · have hk1 : 1 ≤ ((if k = 0 then 2 ^ n else k : ℕ) : ℝ) := by
      have h1 : 1 ≤ (if k = 0 then 2 ^ n else k : ℕ) := by
        by_cases h0 : k = 0
        · simpa [h0] using Nat.one_le_two_pow
        · simp only [h0, if_false]
          omega
      exact_mod_cast h1
    have hkpos : (0 : ℝ) < ((if k = 0 then 2 ^ n else k : ℕ) : ℝ) :=
      lt_of_lt_of_le zero_lt_one hk1
    have hnum : 0 ≤ C * ((2 ^ n : ℕ) : ℝ) * t :=
      mul_nonneg (mul_nonneg hC (Nat.cast_nonneg _)) ht
    have hden : (0 : ℝ) < 2 * Real.pi * ((if k = 0 then 2 ^ n else k : ℕ) : ℝ) :=
      mul_pos (mul_pos two_pos Real.pi_pos) hkpos
    rw [abs_of_nonneg (div_nonneg hnum hden.le), div_le_one hden]
    calc C * ((2 ^ n : ℕ) : ℝ) * t ≤ 2 * Real.pi := hB
      _ ≤ 2 * Real.pi * ((if k = 0 then 2 ^ n else k : ℕ) : ℝ) :=
          le_mul_of_one_le_right (by positivity) hk1

/-- Witness for C9's amended theorem at `C = 1`, `t = 1`, `n = 0`, `k = 0`. -/
theorem ancillaRotation_ok_under_guideline_witness :
    (0 : ℝ) ≤ 1 ∧ (1 : ℝ) * ((2 ^ 0 : ℕ) : ℝ) * 1 ≤ 2 * Real.pi
    ∧ (thetaE 1 1 (2 ^ 0) 0).isSome := by
  have hB : (1 : ℝ) * ((2 ^ 0 : ℕ) : ℝ) * 1 ≤ 2 * Real.pi := by
    push_cast
    nlinarith [Real.pi_gt_three]
  exact ⟨zero_le_one, hB,
    ancillaRotation_ok_under_guideline 1 1 0 zero_le_one zero_le_one hB 0 (by norm_num)⟩

/-- One Mode-B call preserves the difference between `num_runs` and the sum
of the issued repetitions, and lengthens the call list by one. -/
theorem modeBCall_acct (successes : ℕ → ℕ) (s : BState) :
    (modeBCall successes s).numRuns - (modeBCall successes s).calls.sum
      = s.numRuns - s.calls.sum
    ∧ (modeBCall successes s).calls.length = s.calls.length + 1 := by
  constructor
  · simp only [modeBCall, List.sum_append, List.sum_cons, List.sum_nil]
    ring
  · simp [modeBCall]

/-- The inner two-trial loop preserves the `num_runs`/issued-sum difference
and issues at most as many calls as its fuel. -/
theorem modeBInner_acct (successes : ℕ → ℕ) : ∀ (t : ℕ) (s : BState),
    (modeBInner successes t s).numRuns - (modeBInner successes t s).calls.sum
      = s.numRuns - s.calls.sum
    ∧ (modeBInner successes t s).calls.length ≤ s.calls.length + t := by
  intro t
  induction t with
  | zero => intro s; exact ⟨rfl, Nat.le_refl _⟩
  | succ t ih =>
    intro s
    simp only [modeBInner]
    split
    · refine ⟨(modeBCall_acct successes s).1, ?_⟩
      rw [(modeBCall_acct successes s).2]
      omega
    · refine ⟨?_, ?_⟩
      · rw [(ih (modeBCall successes s)).1, (modeBCall_acct successes s).1]
      · have h1 := (ih (modeBCall successes s)).2
        have h2 := (modeBCall_acct successes s).2
        omega

/-- The outer doubling loop preserves the `num_runs`/issued-sum difference
and issues at most two calls per round. -/
theorem modeBOuter_acct (successes : ℕ → ℕ) : ∀ (l : ℕ) (s : BState),
    (modeBOuter successes l s).numRuns - (modeBOuter successes l s).calls.sum
      = s.numRuns - s.calls.sum
    ∧ (modeBOuter successes l s).calls.length ≤ s.calls.length + 2 * l := by
  intro l
  induction l with
  | zero => intro s; exact ⟨rfl, Nat.le_refl _⟩
  | succ l ih =>
    intro s
    simp only [modeBOuter]
    split
    · refine ⟨(modeBInner_acct successes 2 s).1, ?_⟩
      have := (modeBInner_acct successes 2 s).2
      omega
    · refine ⟨?_, ?_⟩
      · rw [(ih (modeBInner successes 2 s)).1, (modeBInner_acct successes 2 s).1]
      · have h1 := (ih (modeBInner successes 2 s)).2
        have h2 := (modeBInner_acct successes 2 s).2
        omega

/-- One Mode-B call keeps the invariant that every issued repetitions value
after the first is positive (a call is only ever issued when the remaining
budget is positive, except the very first). -/
theorem modeBCall_tailPos (successes : ℕ → ℕ) (s : BState)
    (hentry : s.calls = [] ∨ 0 < s.reps)
    (htail : ∀ i, 1 ≤ i → i < s.calls.length → 0 < s.calls.getD i 0) :
    ∀ i, 1 ≤ i → i < (modeBCall successes s).calls.length →
      0 < (modeBCall successes s).calls.getD i 0 := by
  intro i h1 h2
  simp only [modeBCall, List.length_append, List.length_singleton] at h2 ⊢
  by_cases hlt : i < s.calls.length
  · rw [List.getD_append _ _ _ _ hlt]
    exact htail i h1 hlt
  · have hi : i = s.calls.length := by omega
    subst hi
    rw [List.getD_append_right _ _ _ _ (Nat.le_refl _), Nat.sub_self]
    rcases hentry with hnil | hpos
    · rw [hnil] at h1
      simp at h1
    · simpa using hpos

/-- The inner two-trial loop keeps the positive-tail invariant. -/
theorem modeBInner_tailPos (successes : ℕ → ℕ) : ∀ (t : ℕ) (s : BState),
    (s.calls = [] ∨ 0 < s.reps) →
    (∀ i, 1 ≤ i → i < s.calls.length → 0 < s.calls.getD i 0) →
    ∀ i, 1 ≤ i → i < (modeBInner successes t s).calls.length →
      0 < (modeBInner successes t s).calls.getD i 0 := by
  intro t
  induction t with
  | zero => intro s _ htail; exact htail
  | succ t ih =>
    intro s hentry htail
    simp only [modeBInner]
    split
    · exact modeBCall_tailPos successes s hentry htail
    · rename_i hguard
      refine ih (modeBCall successes s) (Or.inr ?_) (modeBCall_tailPos successes s hentry htail)
      omega

/-- The outer doubling loop keeps the positive-tail invariant. -/
theorem modeBOuter_tailPos (successes : ℕ → ℕ) : ∀ (l : ℕ) (s : BState),
    (s.calls = [] ∨ 0 < s.reps) →
    (∀ i, 1 ≤ i → i < s.calls.length → 0 < s.calls.getD i 0) →
    ∀ i, 1 ≤ i → i < (modeBOuter successes l s).calls.length →
      0 < (modeBOuter successes l s).calls.getD i 0 := by
  intro l
  induction l with
  | zero => intro s _ htail; exact htail
  | succ l ih =>
    intro s hentry htail
    simp only [modeBOuter]
    split
    · exact modeBInner_tailPos successes 2 s hentry htail
    · rename_i hguard
      refine ih (modeBInner successes 2 s) (Or.inr ?_)
        (modeBInner_tailPos successes 2 s hentry htail)
      omega

/-- Claim C6: in the amplified sampling mode, per observable at most
`2 × 9 = 18` execution-engine calls are issued; the loop stops as soon as
the remaining repetitions counter reaches zero or below (every call after
the first is issued with a positive remaining budget); and the returned
`num_runs` equals the sum of the `repetitions` arguments of the calls
actually issued. -/
theorem modeB_call_accounting (successes : ℕ → ℕ) (totalEstimates : ℤ) :
    (simulateWithAmplificationObs successes totalEstimates).calls.length ≤ 18
    ∧ (simulateWithAmplificationObs successes totalEstimates).numRuns
        = (simulateWithAmplificationObs successes totalEstimates).calls.sum
    ∧ ∀ i, 1 ≤ i →
        i < (simulateWithAmplificationObs successes totalEstimates).calls.length →
        0 < (simulateWithAmplificationObs successes totalEstimates).calls.getD i 0 := by
  refine ⟨?_, ?_, ?_⟩
  · have := (modeBOuter_acct successes 9 ⟨totalEstimates, 0, []⟩).2
    simpa [simulateWithAmplificationObs] using this
  · have := (modeBOuter_acct successes 9 ⟨totalEstimates, 0, []⟩).1
    simp only [simulateWithAmplificationObs, List.sum_nil] at *
    omega
  · refine modeBOuter_tailPos successes 9 ⟨totalEstimates, 0, []⟩ (Or.inl rfl) ?_
    intro i _ hi
    simp at hi

/-- Witness for C6: with a success oracle that finds one surviving shot per
call and a budget of two estimates, two calls are issued (with repetitions
2 then 1), `num_runs = 3 = 2 + 1`, and the second call's budget is
positive. -/
theorem modeB_call_accounting_witness :
    (simulateWithAmplificationObs oracleOne 2).calls.length ≤ 18
    ∧ (simulateWithAmplificationObs oracleOne 2).numRuns
        = (simulateWithAmplificationObs oracleOne 2).calls.sum
    ∧ 0 < (simulateWithAmplificationObs oracleOne 2).calls.getD 1 0 :=
  ⟨(modeB_call_accounting oracleOne 2).1, (modeB_call_accounting oracleOne 2).2.1,
    (modeB_call_accounting oracleOne 2).2.2 1 (by decide) (by decide)⟩

/-- Python's `-1 >> 1` is `-1`: the all-ones two's-complement word is fixed
by the arithmetic shift. -/
theorem pyShr1_neg_one : pyShr1 (-1) = -1 := by decide

/-- Every bit of the two's-complement `-1` is set. -/
theorem bitI_neg_one (i : ℕ) : bitI (-1) i = true := by
  unfold bitI
  rw [Function.iterate_fixed pyShr1_neg_one i]
  decide

/-- On a natural number, the Python shift agrees with natural division. -/
theorem pyShr1_natCast (m : ℕ) : pyShr1 (m : ℤ) = ((m / 2 : ℕ) : ℤ) := by
  unfold pyShr1
  omega

/-- Shifting once moves all bit positions down by one. -/
theorem bitI_succ (x : ℤ) (i : ℕ) : bitI x (i + 1) = bitI (pyShr1 x) i := by
  simp [bitI, Function.iterate_succ_apply]

/-- On a natural number, the consumed bits are `Nat.testBit`. -/
theorem bitI_natCast (m i : ℕ) : bitI (m : ℤ) i = m.testBit i := by
  induction i generalizing m with
  | zero =>
    simp only [bitI, Function.iterate_zero, id_eq, Nat.testBit_zero]
    rw [decide_eq_decide]
    omega
  | succ i ih =>
    rw [Nat.testBit_succ, ← ih (m / 2), bitI_succ, pyShr1_natCast]

/-- Telescoping of the per-block difference masks: the xor of the masks of
blocks `0..k` at bit `i` is the complement of bit `i` of `k` (so the
cumulative `X` toggles map the basis pattern `k` to all-ones). -/
theorem cumXor_eq (k i : ℕ) : cumXor k i = !(k.testBit i) := by
  induction k with
  | zero =>
    simp only [cumXor, xorInit, if_pos rfl, Nat.zero_testBit, Bool.not_false]
    exact bitI_neg_one i
  | succ k ih =>
    have hx : xorInit (k + 1) = (((k + 1) ^^^ k : ℕ) : ℤ) := by
      simp [xorInit]
    rw [cumXor, ih, hx, bitI_natCast, Nat.testBit_xor]
    cases h1 : (k + 1).testBit i <;> cases h2 : k.testBit i <;> rfl

/-- Splitting `eigenLoop` into its emitted `X` operations and its
`numQubits`-fold singly-controlled wrap of the start gate. -/
theorem eigenLoop_eq (l : List ℕ) : ∀ (x : ℤ) (g : Gate),
    eigenLoop x g l = (eigenLoopOpsX x l, (Gate.controlled 1)^[l.length] g) := by
  induction l with
  | nil => intro x g; rfl
  | cons q rest ih =>
    intro x g
    simp only [eigenLoop, eigenLoopOpsX, ih, List.length_cons]
    rw [Function.iterate_succ_apply]

/-- Every operation the inner loop emits is an `X` on one of the walked
qubits. -/
theorem eigenLoopOpsX_allX (l : List ℕ) : ∀ (x : ℤ), ∀ op ∈ eigenLoopOpsX x l,
    ∃ q ∈ l, op = Op.gate Gate.X [q] := by
  induction l with
  | nil => intro x op hop; simp [eigenLoopOpsX] at hop
  | cons q rest ih =>
    intro x op hop
    simp only [eigenLoopOpsX, List.mem_append] at hop
    rcases hop with hop | hop
    · refine ⟨q, by simp, ?_⟩
      by_cases hx : x % 2 = 1
      · rw [if_pos hx] at hop
        simpa using hop
      · rw [if_neg hx] at hop
        simp at hop
    · obtain ⟨q', hq', rfl⟩ := ih (pyShr1 x) op hop
      exact ⟨q', by simp [hq'], rfl⟩

/-- A qubit not walked by the loop receives no `X`. -/
theorem xCountOn_eigenLoopOpsX_notMem (j : ℕ) (l : List ℕ) (x : ℤ) (hj : j ∉ l) :
    xCountOn j (eigenLoopOpsX x l) = 0 := by
  rw [xCountOn, List.countP_eq_zero]
  intro op hop
  obtain ⟨q, hq, rfl⟩ := eigenLoopOpsX_allX l x op hop
  simp only [isXOn, decide_eq_true_eq]
  intro hqj
  apply hj
  have : q = j := by simpa using hqj
  exact this ▸ hq

/-- The qubit at loop position `i` receives exactly one `X` when bit `i` of
the mask is set and none otherwise (walked qubits distinct). -/
theorem xCountOn_eigenLoopOpsX (l : List ℕ) : l.Nodup →
    ∀ (i : ℕ) (hi : i < l.length) (x : ℤ),
      xCountOn (l.get ⟨i, hi⟩) (eigenLoopOpsX x l) = cond (bitI x i) 1 0 := by
  induction l with
  | nil => intro _ i hi; simp at hi
  | cons q rest ih =>
    intro hnd i hi x
    have hqrest : q ∉ rest := (List.nodup_cons.mp hnd).1
    cases i with
    | zero =>
      simp only [List.get]
      have htail : xCountOn q (eigenLoopOpsX (pyShr1 x) rest) = 0 :=
        xCountOn_eigenLoopOpsX_notMem q rest (pyShr1 x) hqrest
      have hbit : bitI x 0 = decide (x % 2 = 1) := by
        simp [bitI]
      simp only [eigenLoopOpsX, xCountOn, List.countP_append]
      rw [show List.countP (isXOn q) (eigenLoopOpsX (pyShr1 x) rest) = 0 from htail]
      by_cases hx : x % 2 = 1
      · rw [if_pos hx]
        simp [isXOn, hbit, hx, List.countP_cons]
      · rw [if_neg hx]
        simp [hbit, hx]
    | succ i =>
      have hi' : i < rest.length := by simpa using hi
      have hget : (q :: rest).get ⟨i + 1, hi⟩ = rest.get ⟨i, hi'⟩ := rfl
      have hne : q ≠ rest.get ⟨i, hi'⟩ := by
        intro hcon
        exact hqrest (hcon ▸ List.get_mem rest i hi')
      simp only [hget, eigenLoopOpsX, xCountOn, List.countP_append]
      have hhead : List.countP (isXOn (rest.get ⟨i, hi'⟩))
          (if x % 2 = 1 then [Op.gate Gate.X [q]] else []) = 0 := by
        by_cases hx : x % 2 = 1
        · rw [if_pos hx]
          have hne2 : ¬q = rest[i] := by
            simpa [List.get_eq_getElem] using hne
          simp [isXOn, List.countP_cons, hne2]
        · rw [if_neg hx]
          rfl
      rw [hhead, Nat.zero_add, bitI_succ]
      exact ih (List.nodup_cons.mp hnd).2 i hi' (pyShr1 x)

/-- `qubits[-2::-1]` of the canonical qubit list `0..n`: the register
positions in least-significant-first order. -/
theorem dropLast_reverse_range (n : ℕ) :
    (List.range (n + 1)).dropLast.reverse = (List.range n).reverse := by
  rw [List.range_succ, List.dropLast_concat]

/-- The reversed register list at loop position `n - 1 - j` is qubit `j`. -/
theorem get_range_reverse (n j : ℕ) (hj : j < n)
    (h : n - 1 - j < (List.range n).reverse.length) :
    (List.range n).reverse.get ⟨n - 1 - j, h⟩ = j := by
  rw [List.get_eq_getElem, List.getElem_reverse, List.getElem_range]
  simp only [List.length_range]
  omega

/-- The accumulated rotation gate is never a bare `X` operation. -/
theorem isXOn_iterate_ctrl (j m : ℕ) (θ : ℝ) (qs : List ℕ) :
    isXOn j (Op.gate ((Gate.controlled 1)^[m] (Gate.ry θ)) qs) = false := by
  cases m with
  | zero => rfl
  | succ m => rw [Function.iterate_succ_apply']; rfl

/-- The loop's accumulated gate is an `m`-fold singly-controlled `Ry`. -/
theorem isCtrlRyDepth_iterate (m : ℕ) (θ : ℝ) :
    isCtrlRyDepth m ((Gate.controlled 1)^[m] (Gate.ry θ)) = true := by
  induction m with
  | zero => rfl
  | succ m ih =>
    rw [Function.iterate_succ_apply']
    simpa [isCtrlRyDepth] using ih

/-- A bare `X` operation is never an `m`-controlled rotation. -/
theorem isCtrlRotOp_X (m q : ℕ) : isCtrlRotOp m (Op.gate Gate.X [q]) = false := by
  cases m <;> rfl

/-- Shape of the `k`-th decompose block on the canonical qubits: the
mask-driven `X` toggles on the reversed register, then one `n`-fold
controlled `Ry` applied to all the qubits. -/
theorem eigenBlock_shape (C t : ℝ) (n k : ℕ) (b : List Op)
    (hb : eigenBlock C t n (List.range (n + 1)) k = some b) :
    ∃ θ, thetaE C t (2 ^ n) k = some θ ∧
      b = eigenLoopOpsX (xorInit k) ((List.range n).reverse) ++
          [Op.gate ((Gate.controlled 1)^[n] (Gate.ry θ)) (List.range (n + 1))] := by
  rw [eigenBlock, Option.map_eq_some'] at hb
  obtain ⟨θ, hθ, hbeq⟩ := hb
  refine ⟨θ, hθ, ?_⟩
  rw [← hbeq, dropLast_reverse_range, eigenLoop_eq]
  simp

/-- Characterization of a successful `blocksAux` run: one block per listed
`k`, in order. -/
theorem blocksAux_char (C t : ℝ) (n : ℕ) (qs : List ℕ) :
    ∀ (ks : List ℕ) (bs : List (List Op)), blocksAux C t n qs ks = some bs →
      bs.length = ks.length ∧
      ∀ i (hi : i < ks.length) (hbl : i < bs.length),
        eigenBlock C t n qs (ks.get ⟨i, hi⟩) = some (bs.get ⟨i, hbl⟩) := by
  intro ks
  induction ks with
  | nil =>
    intro bs h
    simp only [blocksAux] at h
    cases h
    exact ⟨rfl, fun i hi hbl => absurd hi (by simp)⟩
  | cons k ks ih =>
    intro bs h
    simp only [blocksAux] at h
    cases hb : eigenBlock C t n qs k with
    | none =>
      rw [hb] at h
      cases h
    | some b =>
      cases hrest : blocksAux C t n qs ks with
      | none =>
        rw [hb, hrest] at h
        cases h
      | some bs' =>
        rw [hb, hrest] at h
        cases h
        obtain ⟨hlen, hget⟩ := ih bs' hrest
        refine ⟨by simp [hlen], ?_⟩
        intro i hi hbl
        cases i with
        | zero => exact hb
        | succ i => exact hget i (by simpa using hi) (by simpa using hbl)

/-- A map sums to the list length when every value is 1. -/
theorem sum_map_ones {α : Type} (f : α → ℕ) :
    ∀ (l : List α), (∀ b ∈ l, f b = 1) → (l.map f).sum = l.length := by
  intro l
  induction l with
  | nil => intro _; rfl
  | cons b l ih =>
    intro h
    simp only [List.map_cons, List.sum_cons, List.length_cons,
      ih (fun x hx => h x (List.mem_cons_of_mem b hx)), h b (List.mem_cons_self b l)]
    omega

/-- Each successful block applies its `X` toggles exactly where the block's
difference mask has a set bit (at loop position `n - 1 - j` for register
qubit `j`). -/
theorem eigenBlock_xCount (C t : ℝ) (n k j : ℕ) (hj : j < n) (b : List Op)
    (hb : eigenBlock C t n (List.range (n + 1)) k = some b) :
    xCountOn j b = cond (bitI (xorInit k) (n - 1 - j)) 1 0 := by
  obtain ⟨θ, hθ, rfl⟩ := eigenBlock_shape C t n k b hb
  rw [xCountOn, List.countP_append]
  have hrot : List.countP (isXOn j)
      [Op.gate ((Gate.controlled 1)^[n] (Gate.ry θ)) (List.range (n + 1))] = 0 := by
    simp [List.countP_cons, isXOn_iterate_ctrl]
  rw [hrot, Nat.add_zero]
  have hlen : n - 1 - j < ((List.range n).reverse).length := by
    simp only [List.length_reverse, List.length_range]
    omega
  have hnd : ((List.range n).reverse).Nodup :=
    List.nodup_reverse.mpr (List.nodup_range n)
  have hcount := xCountOn_eigenLoopOpsX ((List.range n).reverse) hnd
    (n - 1 - j) hlen (xorInit k)
  rw [get_range_reverse n j hj hlen] at hcount
  exact hcount

/-- Each successful block contains exactly one `n`-controlled rotation. -/
theorem eigenBlock_rotCount (C t : ℝ) (n k : ℕ) (b : List Op)
    (hb : eigenBlock C t n (List.range (n + 1)) k = some b) :
    List.countP (isCtrlRotOp n) b = 1 := by
  obtain ⟨θ, hθ, rfl⟩ := eigenBlock_shape C t n k b hb
  rw [List.countP_append]
  have h0 : List.countP (isCtrlRotOp n)
      (eigenLoopOpsX (xorInit k) ((List.range n).reverse)) = 0 := by
    rw [List.countP_eq_zero]
    intro op hop
    obtain ⟨q, _, rfl⟩ := eigenLoopOpsX_allX _ _ op hop
    simp [isCtrlRotOp_X]
  rw [h0]
  simp [List.countP_cons, isCtrlRotOp, isCtrlRyDepth_iterate]

/-- Claim C3: in the Gray-code-style decomposition of the eigenvalue-inversion
network on the canonical qubit list `0..n` (register `0..n-1` big-endian,
ancilla last), whenever the decomposition succeeds: (1) it has one block per
`k` in `[0, 2^n)`; (2) after the `X` toggles emitted in blocks `0..k`
(driven by the bits of `xor = k XOR (k-1)`, consumed least-significant-first)
the cumulative `X` parity on register line `j` is the complement of bit
`n-1-j` of `k`, i.e. the toggles map exactly the basis state with bit
pattern `k` to the all-ones control pattern; (3) the rotation emitted in
each block is an `n`-controlled single-qubit `Ry`; and (4) the full network
contains exactly `2^n` such controlled rotations. -/
theorem eigenRotation_grayCode_invariant (n : ℕ) (C t : ℝ) (bs : List (List Op))
    (h : eigenDecomposeBlocks C t n (List.range (n + 1)) = some bs) :
    bs.length = 2 ^ n
    ∧ (∀ k, k < 2 ^ n → ∀ j, j < n →
        xCountOn j ((bs.take (k + 1)).flatten) % 2
          = if Nat.testBit k (n - 1 - j) then 0 else 1)
    ∧ (∀ k, ∀ hk : k < bs.length, ∃ θ,
        (bs.get ⟨k, hk⟩).getLast? =
          some (Op.gate ((Gate.controlled 1)^[n] (Gate.ry θ)) (List.range (n + 1))))
    ∧ List.countP (isCtrlRotOp n) bs.flatten = 2 ^ n := by
  obtain ⟨hlen, hget⟩ :=
    blocksAux_char C t n (List.range (n + 1)) (List.range (2 ^ n)) bs h
  rw [List.length_range] at hlen
  have hblock : ∀ k (hk : k < bs.length),
      eigenBlock C t n (List.range (n + 1)) k = some (bs.get ⟨k, hk⟩) := by
    intro k hk
    have hk2 : k < (List.range (2 ^ n)).length := by
      simp only [List.length_range]
      omega
    have hg := hget k hk2 hk
    rwa [List.get_eq_getElem, List.getElem_range] at hg
  refine ⟨hlen, ?_, ?_, ?_⟩
  · intro k hk j hj
    have hpar : ∀ m, m < 2 ^ n →
        xCountOn j ((bs.take (m + 1)).flatten) % 2
          = cond (cumXor m (n - 1 - j)) 1 0 := by
      intro m
      induction m with
      | zero =>
        intro hm
        have h0 : (0 : ℕ) < bs.length := by omega
        have htake : bs.take 1 = [bs.get ⟨0, h0⟩] := by
          rw [List.take_succ, List.take_zero, List.nil_append,
            List.getElem?_eq_getElem h0]
          rfl
        rw [htake]
        simp only [List.flatten_cons, List.flatten_nil, List.append_nil]
        rw [eigenBlock_xCount C t n 0 j hj _ (hblock 0 h0)]
        simp only [cumXor]
        cases hb0 : bitI (xorInit 0) (n - 1 - j) <;> rfl
      | succ m ih =>
        intro hm
        have hm' : m < 2 ^ n := by omega
        have hm1 : m + 1 < bs.length := by omega
        have htake : bs.take (m + 2) = bs.take (m + 1) ++ [bs.get ⟨m + 1, hm1⟩] := by
          rw [List.take_succ, List.getElem?_eq_getElem hm1]
          rfl
        rw [htake, List.flatten_append]
        rw [xCountOn, List.countP_append]
        have hc1 := ih hm'
        rw [xCountOn] at hc1
        have hc2 : List.countP (isXOn j) ([bs.get ⟨m + 1, hm1⟩].flatten)
            = cond (bitI (xorInit (m + 1)) (n - 1 - j)) 1 0 := by
          have hco := eigenBlock_xCount C t n (m + 1) j hj _ (hblock (m + 1) hm1)
          simpa [xCountOn] using hco
        simp only [List.flatten_cons, List.flatten_nil, List.append_nil] at hc2 ⊢
        rw [hc2, cumXor]
        cases hb1 : cumXor m (n - 1 - j) <;>
          cases hb2 : bitI (xorInit (m + 1)) (n - 1 - j) <;>
          rw [hb1] at hc1 <;>
          simp only [Bool.false_xor, Bool.true_xor, Bool.xor_false, Bool.xor_true,
            Bool.not_true, Bool.not_false, cond_true, cond_false] at hc1 ⊢ <;>
          omega
    rw [hpar k hk, cumXor_eq]
    cases hbit : Nat.testBit k (n - 1 - j) <;> rfl
  · intro k hk
    obtain ⟨θ, _, hbe⟩ := eigenBlock_shape C t n k _ (hblock k hk)
    refine ⟨θ, ?_⟩
    rw [hbe, List.getLast?_concat]
  · rw [List.countP_flatten, sum_map_ones _ bs ?_, hlen]
    intro b hb2
    obtain ⟨i, rfl⟩ := List.mem_iff_get.mp hb2
    exact eigenBlock_rotCount C t n i.1 _ (hblock i.1 i.2)

/-- Witness for C3 at `n = 1`, `C = 0`, `t = 0`: the decomposition succeeds
with `2^1 = 2` blocks; after the first block (mask `0 XOR -1 = -1`) the
register line carries one `X` (mapping pattern `0` to the all-ones
pattern), and the network holds exactly two singly-controlled rotations. -/
theorem eigenRotation_grayCode_invariant_witness :
    eigenDecomposeBlocks 0 0 1 (List.range 2) = some
      [[Op.gate Gate.X [0], Op.gate (Gate.controlled 1 (Gate.ry 0)) [0, 1]],
       [Op.gate Gate.X [0], Op.gate (Gate.controlled 1 (Gate.ry 0)) [0, 1]]]
    ∧ ([[Op.gate Gate.X [0], Op.gate (Gate.controlled 1 (Gate.ry 0)) [0, 1]],
        [Op.gate Gate.X [0], Op.gate (Gate.controlled 1 (Gate.ry 0)) [0, 1]]] :
          List (List Op)).length = 2 ^ 1
    ∧ xCountOn 0 ((([[Op.gate Gate.X [0], Op.gate (Gate.controlled 1 (Gate.ry 0)) [0, 1]],
        [Op.gate Gate.X [0], Op.gate (Gate.controlled 1 (Gate.ry 0)) [0, 1]]] :
          List (List Op)).take 1).flatten) % 2 = 1
    ∧ List.countP (isCtrlRotOp 1)
        ([[Op.gate Gate.X [0], Op.gate (Gate.controlled 1 (Gate.ry 0)) [0, 1]],
          [Op.gate Gate.X [0], Op.gate (Gate.controlled 1 (Gate.ry 0)) [0, 1]]] :
            List (List Op)).flatten = 2 ^ 1 := by
  have ht0 : thetaE 0 0 (2 ^ 1) 0 = some 0 := by simp [thetaE]
  have ht1 : thetaE 0 0 (2 ^ 1) 1 = some 0 := by simp [thetaE]
  have h : eigenDecomposeBlocks 0 0 1 (List.range 2) = some
      [[Op.gate Gate.X [0], Op.gate (Gate.controlled 1 (Gate.ry 0)) [0, 1]],
       [Op.gate Gate.X [0], Op.gate (Gate.controlled 1 (Gate.ry 0)) [0, 1]]] := by
    have hr : List.range (2 ^ 1) = [0, 1] := rfl
    rw [eigenDecomposeBlocks, hr]
    rw [blocksAux, blocksAux, blocksAux]
    rw [show eigenBlock 0 0 1 (List.range 2) 0 =
      some [Op.gate Gate.X [0], Op.gate (Gate.controlled 1 (Gate.ry 0)) [0, 1]] by
        rw [eigenBlock, ht0]
        simp [eigenLoop, xorInit, pyShr1]
        decide]
    rw [show eigenBlock 0 0 1 (List.range 2) 1 =
      some [Op.gate Gate.X [0], Op.gate (Gate.controlled 1 (Gate.ry 0)) [0, 1]] by
        rw [eigenBlock, ht1]
        simp [eigenLoop, xorInit, pyShr1]
        decide]
  obtain ⟨h1, h2, _, h4⟩ := eigenRotation_grayCode_invariant 1 0 0 _ h
  refine ⟨h, h1, ?_, h4⟩
  have hp := h2 0 (by norm_num) 0 (by norm_num)
  simpa using hp

/-- Witness for C4 at `A = 0`, `C = t = 0`, `register_size = 0`, no
preparation gates: the circuit is the three-operation sequence and its
first operation is not a measurement. -/
theorem hhlCircuit_structure_no_measurement_witness :
    hhlCircuit 0 0 0 0 [] =
      [Op.gate (Gate.phaseEstimation 1 (Gate.hamSim 0 0 1)) [1],
       Op.gate (Gate.eigenRotation 1 0 0) [0],
       Op.gate (Gate.inv (Gate.phaseEstimation 1 (Gate.hamSim 0 0 1))) [1]]
    ∧ (Op.gate (Gate.phaseEstimation 1 (Gate.hamSim 0 0 1)) [1]).isMeasurement = false := by
  have e : hhlCircuit 0 0 0 0 [] =
      [Op.gate (Gate.phaseEstimation 1 (Gate.hamSim 0 0 1)) [1],
       Op.gate (Gate.eigenRotation 1 0 0) [0],
       Op.gate (Gate.inv (Gate.phaseEstimation 1 (Gate.hamSim 0 0 1))) [1]] := rfl
  refine ⟨e, ?_⟩
  refine (hhlCircuit_structure_no_measurement 0 0 0 0 []).2 _ ?_
  rw [e]
  exact List.mem_cons_self _ _

/-- Witness for C8's amended theorem at `A = 0`, `C = t = 0`, no
preparation gates: construction with `register_size = 0` yields the empty
register and an unreported, measurement-free circuit. -/
theorem registerSize_zero_not_validated_witness :
    (hhlInit 0 0 0 0 []).register = []
    ∧ (Op.gate (Gate.eigenRotation 1 0 0) [0]).isMeasurement = false := by
  refine ⟨(registerSize_zero_not_validated 0 0 0 []).1, ?_⟩
  refine (registerSize_zero_not_validated 0 0 0 []).2.2 _ ?_
  have e : hhlCircuit 0 0 0 0 [] =
      [Op.gate (Gate.phaseEstimation 1 (Gate.hamSim 0 0 1)) [1],
       Op.gate (Gate.eigenRotation 1 0 0) [0],
       Op.gate (Gate.inv (Gate.phaseEstimation 1 (Gate.hamSim 0 0 1))) [1]] := rfl
  rw [e]
  exact List.mem_cons_of_mem _ (List.mem_cons_self _ _)
